import Mathlib

/-!
Verification of the entertainment-briefing pipeline core
(`src/filters.py`, `src/database.py`, `config.py`).

Stories are Python dicts with string fields; absent `title`/`summary` are
read with a `""` default by the code, so they are plain strings here, while
`published` is read with a default only at the sort key, so it is kept as
an `Option String`.  The five sequential assignment loops of
`categorize_stories` are rendered as folds over the growing
assigned-URL accumulator (the explicit-fold reframing the spec itself
recommends); SQLite's `sent_stories` table is a list of rows.  A row's
`sent_at` is the TEXT the `datetime('now')` column default writes
(`YYYY-MM-DD HH:MM:SS`, UTC), kept as a string, and the cleanup DELETE
compares it with SQLite's BINARY collation (byte-wise, here code-point
lexicographic) against the cutoff string Python passes, which
`datetime.isoformat()` renders in the different
`YYYY-MM-DDTHH:MM:SS.ffffff+00:00` format.
-/

namespace Briefing

/-- A normalized item (a Python dict): `url`, `title`, `summary` strings
(`.get` defaults to `""`), optional `published`, and the `category` field
the categorizer assigns. -/
structure Story where
  url : String
  title : String := ""
  summary : String := ""
  published : Option String := none
  category : String := ""
deriving Repr, DecidableEq

/-- `config.ACTOR_KEYWORDS`. -/
def ACTOR_KEYWORDS : List String :=
  ["actor", "actress", "casting", "cast", "star", "starring", "celebrity",
   "red carpet", "premiere", "oscar", "emmy", "golden globe", "sag award",
   "box office", "film role", "tv role", "series regular", "cameo",
   "interview", "profile", "tribute", "memoir"]

/-- `config.CLASSIC_ROCK_KEYWORDS`. -/
def CLASSIC_ROCK_KEYWORDS : List String :=
  ["led zeppelin", "rolling stones", "pink floyd", "the beatles", "the who",
   "ac/dc", "aerosmith", "black sabbath", "deep purple", "fleetwood mac",
   "eagles", "queen", "jimi hendrix", "eric clapton", "bob dylan",
   "bruce springsteen", "david bowie", "tom petty", "van halen", "def leppard",
   "rush", "kiss", "lynyrd skynyrd", "zz top", "journey", "foreigner",
   "bon jovi", "guns n' roses", "metallica", "iron maiden", "judas priest",
   "motley crue", "ozzy osbourne", "stevie nicks", "roger waters",
   "robert plant", "jimmy page", "mick jagger", "keith richards",
   "pete townshend", "roger daltrey", "classic rock", "rock legend",
   "hall of fame", "reunion tour", "farewell tour", "rock icon"]

/-- `config.CATEGORIES`. -/
def CATEGORIES : List String :=
  ["General Entertainment", "Actors & Celebrity", "Musicians & Music",
   "Edmonton Events", "Classic Rock"]

/-- `config.STORIES_PER_CATEGORY`. -/
def STORIES_PER_CATEGORY : Nat := 10

/-- `config.DEDUP_RETENTION_DAYS`. -/
def DEDUP_RETENTION_DAYS : Int := 30

/-- Python's `kw in text` on strings: `kw` occurs contiguously in `text`. -/
def strContains (kw : List Char) : List Char → Bool
  | [] => kw.isEmpty
  | c :: rest => kw.isPrefixOf (c :: rest) || strContains kw rest

/-- Python's `str.lower`, character by character. -/
def lowerChars (l : List Char) : List Char := l.map Char.toLower

/-- `filters._matches_keywords`: case-insensitive substring match of any
keyword against `title ++ " " ++ summary`. -/
def _matches_keywords (story : Story) (keywords : List String) : Bool :=
  let text := lowerChars (story.title ++ " " ++ story.summary).data
  keywords.any fun kw => strContains (lowerChars kw.data) text

/-- One assignment loop of `categorize_stories`: walk `stories`, and each
story whose `url` is not yet in `assigned` and which satisfies `cond` is
appended (with `category` set to `cat`) and its URL added to `assigned`.
Returns the appended stories and the final assigned-URL set. -/
def assignPass (cat : String) (cond : Story → Bool) :
    List Story → List String → List Story × List String
  | [], assigned => ([], assigned)
  | s :: rest, assigned =>
    if s.url ∉ assigned ∧ cond s = true then
      let r := assignPass cat cond rest (s.url :: assigned)
      ({ s with category := cat } :: r.1, r.2)
    else
      assignPass cat cond rest assigned

/-- Step 1 of `categorize_stories`: every events item is appended to
Edmonton Events unconditionally. -/
def stageEv (ev : List Story) : List Story :=
  ev.map fun s => { s with category := "Edmonton Events" }

/-- The assigned-URL set after step 1 (all events URLs). -/
def asEv (ev : List Story) : List String := ev.map Story.url

/-- Step 2: direct actor-source stories into Actors & Celebrity. -/
def stage1 (a ev : List Story) : List Story × List String :=
  assignPass "Actors & Celebrity" (fun _ => true) a (asEv ev)

/-- Step 3: cross-filter of general stories matching actor keywords into
Actors & Celebrity. -/
def stage2 (g a ev : List Story) : List Story × List String :=
  assignPass "Actors & Celebrity" (fun s => _matches_keywords s ACTOR_KEYWORDS)
    g (stage1 a ev).2

/-- Step 4: direct classic-rock-source stories into Classic Rock. -/
def stage3 (g a cr ev : List Story) : List Story × List String :=
  assignPass "Classic Rock" (fun _ => true) cr (stage2 g a ev).2

/-- Step 5: cross-filter of music stories matching classic-rock keywords
into Classic Rock. -/
def stage4 (g a m cr ev : List Story) : List Story × List String :=
  assignPass "Classic Rock" (fun s => _matches_keywords s CLASSIC_ROCK_KEYWORDS)
    m (stage3 g a cr ev).2

/-- Step 6: remaining music stories into Musicians & Music. -/
def stage5 (g a m cr ev : List Story) : List Story × List String :=
  assignPass "Musicians & Music" (fun _ => true) m (stage4 g a m cr ev).2

/-- Step 7: remaining general stories into General Entertainment. -/
def stage6 (g a m cr ev : List Story) : List Story × List String :=
  assignPass "General Entertainment" (fun _ => true) g (stage5 g a m cr ev).2

/-- `filters.categorize_stories`: the result dict, in `CATEGORIES` key
order, assembled from the seven sequential steps above. -/
def categorize_stories (g a m cr ev : List Story) : List (String × List Story) :=
  [("General Entertainment", (stage6 g a m cr ev).1),
   ("Actors & Celebrity", (stage1 a ev).1 ++ (stage2 g a ev).1),
   ("Musicians & Music", (stage5 g a m cr ev).1),
   ("Edmonton Events", stageEv ev),
   ("Classic Rock", (stage3 g a cr ev).1 ++ (stage4 g a m cr ev).1)]

/-- The URLs of a story list. -/
def urlsOf (l : List Story) : List String := l.map Story.url

/-- Dict lookup on a categorized mapping (`result[category]`). -/
def catList (out : List (String × List Story)) (c : String) : List Story :=
  ((out.find? fun p => p.1 == c).map Prod.snd).getD []

section AssignPassLemmas

variable (cat : String) (cond : Story → Bool)

theorem assignPass_assigned_mono (l : List Story) (as : List String) {u : String}
    (h : u ∈ as) : u ∈ (assignPass cat cond l as).2 := by
  induction l generalizing as with
  | nil => simpa [assignPass] using h
  | cons s rest ih =>
    by_cases hc : s.url ∉ as ∧ cond s = true
    · simp only [assignPass, if_pos hc]
      exact ih (s.url :: as) (List.mem_cons_of_mem _ h)
    · simp only [assignPass, if_neg hc]
      exact ih as h

theorem assignPass_assigned_of_cond (l : List Story) (as : List String) {s : Story}
    (hs : s ∈ l) (hcond : cond s = true) : s.url ∈ (assignPass cat cond l as).2 := by
  induction l generalizing as with
  | nil => cases hs
  | cons t rest ih =>
    rcases List.mem_cons.1 hs with rfl | hmem
    · by_cases hc : s.url ∉ as ∧ cond s = true
      · simp only [assignPass, if_pos hc]
        exact assignPass_assigned_mono cat cond rest _ (List.mem_cons_self _ _)
      · have hin : s.url ∈ as := by
          by_contra hnot
          exact hc ⟨hnot, hcond⟩
        by_cases hc2 : s.url ∉ as ∧ cond s = true
        · exact absurd hc2 hc
        · simp only [assignPass, if_neg hc2]
          exact assignPass_assigned_mono cat cond rest as hin
    · by_cases hc : t.url ∉ as ∧ cond t = true
      · simp only [assignPass, if_pos hc]
        exact ih _ hmem
      · simp only [assignPass, if_neg hc]
        exact ih _ hmem

theorem assignPass_assigned_iff (l : List Story) (as : List String) (u : String) :
    u ∈ (assignPass cat cond l as).2 ↔
      u ∈ as ∨ u ∈ urlsOf (assignPass cat cond l as).1 := by
  induction l generalizing as with
  | nil => simp [assignPass, urlsOf]
  | cons s rest ih =>
    by_cases hc : s.url ∉ as ∧ cond s = true
    · simp only [assignPass, if_pos hc, urlsOf, List.map_cons, List.mem_cons]
      rw [show ({ s with category := cat } : Story).url = s.url from rfl]
      constructor
      · intro h
        rcases (ih (s.url :: as)).1 h with h1 | h2
        · rcases List.mem_cons.1 h1 with rfl | h3
          · exact Or.inr (Or.inl rfl)
          · exact Or.inl h3
        · exact Or.inr (Or.inr h2)
      · intro h
        rcases h with h1 | h2 | h3
        · exact (ih (s.url :: as)).2 (Or.inl (List.mem_cons_of_mem _ h1))
        · exact (ih (s.url :: as)).2 (Or.inl (h2 ▸ List.mem_cons_self _ _))
        · exact (ih (s.url :: as)).2 (Or.inr h3)
    · simp only [assignPass, if_neg hc]
      exact ih as

theorem assignPass_out_fresh (l : List Story) (as : List String) {u : String}
    (h : u ∈ as) : u ∉ urlsOf (assignPass cat cond l as).1 := by
  induction l generalizing as with
  | nil => simp [assignPass, urlsOf]
  | cons s rest ih =>
    by_cases hc : s.url ∉ as ∧ cond s = true
    · simp only [assignPass, if_pos hc, urlsOf, List.map_cons, List.mem_cons]
      push_neg
      refine ⟨?_, ?_⟩
      · rw [show ({ s with category := cat } : Story).url = s.url from rfl]
        intro heq
        exact hc.1 (heq ▸ h)
      · exact ih (s.url :: as) (List.mem_cons_of_mem _ h)
    · simp only [assignPass, if_neg hc]
      exact ih as h

theorem assignPass_out_sub_input (l : List Story) (as : List String) {u : String}
    (h : u ∈ urlsOf (assignPass cat cond l as).1) : u ∈ urlsOf l := by
  induction l generalizing as with
  | nil => simp [assignPass, urlsOf] at h
  | cons s rest ih =>
    by_cases hc : s.url ∉ as ∧ cond s = true
    · simp only [assignPass, if_pos hc, urlsOf, List.map_cons, List.mem_cons] at h ⊢
      rcases h with h1 | h2
      · exact Or.inl h1
      · exact Or.inr (ih (s.url :: as) h2)
    · simp only [assignPass, if_neg hc] at h
      simp only [urlsOf, List.map_cons, List.mem_cons]
      exact Or.inr (ih as h)

theorem assignPass_out_mem (l : List Story) (as : List String) {s : Story}
    (hs : s ∈ l) (hcond : cond s = true) (hfresh : s.url ∉ as) :
    s.url ∈ urlsOf (assignPass cat cond l as).1 := by
  induction l generalizing as with
  | nil => cases hs
  | cons t rest ih =>
    rcases List.mem_cons.1 hs with rfl | hmem
    · have hc : s.url ∉ as ∧ cond s = true := ⟨hfresh, hcond⟩
      simp only [assignPass, if_pos hc, urlsOf, List.map_cons, List.mem_cons]
      exact Or.inl trivial
    · by_cases hc : t.url ∉ as ∧ cond t = true
      · simp only [assignPass, if_pos hc, urlsOf, List.map_cons, List.mem_cons]
        by_cases heq : s.url = t.url
        · exact Or.inl heq
        · have : s.url ∉ t.url :: as := by
            simp [heq, hfresh]
          exact Or.inr (ih _ hmem this)
      · simp only [assignPass, if_neg hc]
        exact ih as hmem hfresh

end AssignPassLemmas

theorem urlsOf_stageEv (ev : List Story) : urlsOf (stageEv ev) = asEv ev := by
  simp [urlsOf, stageEv, asEv, List.map_map]

theorem urlsOf_append (x y : List Story) : urlsOf (x ++ y) = urlsOf x ++ urlsOf y :=
  List.map_append _ _ _

section StageLemmas

variable (g a m cr ev : List Story) {u : String}

theorem stage1_mono (h : u ∈ asEv ev) : u ∈ (stage1 a ev).2 :=
  assignPass_assigned_mono _ _ _ _ h

theorem stage2_mono (h : u ∈ (stage1 a ev).2) : u ∈ (stage2 g a ev).2 :=
  assignPass_assigned_mono _ _ _ _ h

theorem stage3_mono (h : u ∈ (stage2 g a ev).2) : u ∈ (stage3 g a cr ev).2 :=
  assignPass_assigned_mono _ _ _ _ h

theorem stage4_mono (h : u ∈ (stage3 g a cr ev).2) : u ∈ (stage4 g a m cr ev).2 :=
  assignPass_assigned_mono _ _ _ _ h

theorem stage5_mono (h : u ∈ (stage4 g a m cr ev).2) : u ∈ (stage5 g a m cr ev).2 :=
  assignPass_assigned_mono _ _ _ _ h

theorem stage6_mono (h : u ∈ (stage5 g a m cr ev).2) : u ∈ (stage6 g a m cr ev).2 :=
  assignPass_assigned_mono _ _ _ _ h

theorem stage1_fresh (h : u ∈ asEv ev) : u ∉ urlsOf (stage1 a ev).1 :=
  assignPass_out_fresh _ _ _ _ h

theorem stage2_fresh (h : u ∈ (stage1 a ev).2) : u ∉ urlsOf (stage2 g a ev).1 :=
  assignPass_out_fresh _ _ _ _ h

theorem stage3_fresh (h : u ∈ (stage2 g a ev).2) : u ∉ urlsOf (stage3 g a cr ev).1 :=
  assignPass_out_fresh _ _ _ _ h

theorem stage4_fresh (h : u ∈ (stage3 g a cr ev).2) : u ∉ urlsOf (stage4 g a m cr ev).1 :=
  assignPass_out_fresh _ _ _ _ h

theorem stage5_fresh (h : u ∈ (stage4 g a m cr ev).2) : u ∉ urlsOf (stage5 g a m cr ev).1 :=
  assignPass_out_fresh _ _ _ _ h

theorem stage6_fresh (h : u ∈ (stage5 g a m cr ev).2) : u ∉ urlsOf (stage6 g a m cr ev).1 :=
  assignPass_out_fresh _ _ _ _ h

theorem stage1_cont (h : u ∈ urlsOf (stage1 a ev).1) : u ∈ (stage1 a ev).2 :=
  (assignPass_assigned_iff _ _ _ _ _).2 (Or.inr h)

theorem stage2_cont (h : u ∈ urlsOf (stage2 g a ev).1) : u ∈ (stage2 g a ev).2 :=
  (assignPass_assigned_iff _ _ _ _ _).2 (Or.inr h)

theorem stage3_cont (h : u ∈ urlsOf (stage3 g a cr ev).1) : u ∈ (stage3 g a cr ev).2 :=
  (assignPass_assigned_iff _ _ _ _ _).2 (Or.inr h)

theorem stage4_cont (h : u ∈ urlsOf (stage4 g a m cr ev).1) : u ∈ (stage4 g a m cr ev).2 :=
  (assignPass_assigned_iff _ _ _ _ _).2 (Or.inr h)

theorem stage5_cont (h : u ∈ urlsOf (stage5 g a m cr ev).1) : u ∈ (stage5 g a m cr ev).2 :=
  (assignPass_assigned_iff _ _ _ _ _).2 (Or.inr h)

theorem stage6_cont (h : u ∈ urlsOf (stage6 g a m cr ev).1) : u ∈ (stage6 g a m cr ev).2 :=
  (assignPass_assigned_iff _ _ _ _ _).2 (Or.inr h)

/-- Every URL assigned by the end of the pipeline came from one of the
seven per-step output lists. -/
theorem stage6_assigned_cases (h : u ∈ (stage6 g a m cr ev).2) :
    u ∈ urlsOf (stageEv ev) ∨ u ∈ urlsOf (stage1 a ev).1 ∨ u ∈ urlsOf (stage2 g a ev).1 ∨
      u ∈ urlsOf (stage3 g a cr ev).1 ∨ u ∈ urlsOf (stage4 g a m cr ev).1 ∨
      u ∈ urlsOf (stage5 g a m cr ev).1 ∨ u ∈ urlsOf (stage6 g a m cr ev).1 := by
  rcases (assignPass_assigned_iff _ _ _ _ _).1 h with h5 | hout
  · rcases (assignPass_assigned_iff _ _ _ _ _).1 h5 with h4 | hout
    · rcases (assignPass_assigned_iff _ _ _ _ _).1 h4 with h3 | hout
      · rcases (assignPass_assigned_iff _ _ _ _ _).1 h3 with h2 | hout
        · rcases (assignPass_assigned_iff _ _ _ _ _).1 h2 with h1 | hout
          · rcases (assignPass_assigned_iff _ _ _ _ _).1 h1 with h0 | hout
            · exact Or.inl ((urlsOf_stageEv ev).symm ▸ h0)
            · exact Or.inr (Or.inl hout)
          · exact Or.inr (Or.inr (Or.inl hout))
        · exact Or.inr (Or.inr (Or.inr (Or.inl hout)))
      · exact Or.inr (Or.inr (Or.inr (Or.inr (Or.inl hout))))
    · exact Or.inr (Or.inr (Or.inr (Or.inr (Or.inr (Or.inl hout)))))
  · exact Or.inr (Or.inr (Or.inr (Or.inr (Or.inr (Or.inr hout)))))

end StageLemmas

/-- C1: the output of `categorize_stories` partitions the input URLs: no URL
appears under two different categories, every URL occurring in any input
list appears under some category of the output (hence, with the first
conjunct, under exactly one), and every output URL comes from the input. -/
theorem categorize_stories_partitions (g a m cr ev : List Story) :
    (∀ p₁ ∈ categorize_stories g a m cr ev, ∀ p₂ ∈ categorize_stories g a m cr ev,
        ∀ s₁ ∈ p₁.2, ∀ s₂ ∈ p₂.2, p₁.1 ≠ p₂.1 → s₁.url ≠ s₂.url) ∧
    (∀ s ∈ g ++ a ++ m ++ cr ++ ev,
        ∃ p ∈ categorize_stories g a m cr ev, ∃ t ∈ p.2, t.url = s.url) ∧
    (∀ p ∈ categorize_stories g a m cr ev, ∀ t ∈ p.2,
        ∃ s ∈ g ++ a ++ m ++ cr ++ ev, s.url = t.url) := by
  have e0 : ∀ {u : String}, u ∈ urlsOf (stageEv ev) → u ∈ asEv ev :=
    fun {u} h => urlsOf_stageEv ev ▸ h
  have t01 := @stage1_mono a ev
  have t12 := @stage2_mono g a ev
  have t23 := @stage3_mono g a cr ev
  have t34 := @stage4_mono g a m cr ev
  have t45 := @stage5_mono g a m cr ev
  have t56 := @stage6_mono g a m cr ev
  have c1 := @stage1_cont a ev
  have c2 := @stage2_cont g a ev
  have c3 := @stage3_cont g a cr ev
  have c4 := @stage4_cont g a m cr ev
  have c5 := @stage5_cont g a m cr ev
  have f1 := @stage1_fresh a ev
  have f2 := @stage2_fresh g a ev
  have f3 := @stage3_fresh g a cr ev
  have f4 := @stage4_fresh g a m cr ev
  have f5 := @stage5_fresh g a m cr ev
  have f6 := @stage6_fresh g a m cr ev
  have D01 : ∀ u, u ∈ urlsOf (stageEv ev) → u ∉ urlsOf (stage1 a ev).1 :=
    fun u h => f1 (e0 h)
  have D02 : ∀ u, u ∈ urlsOf (stageEv ev) → u ∉ urlsOf (stage2 g a ev).1 :=
    fun u h => f2 (t01 (e0 h))
  have D03 : ∀ u, u ∈ urlsOf (stageEv ev) → u ∉ urlsOf (stage3 g a cr ev).1 :=
    fun u h => f3 (t12 (t01 (e0 h)))
  have D04 : ∀ u, u ∈ urlsOf (stageEv ev) → u ∉ urlsOf (stage4 g a m cr ev).1 :=
    fun u h => f4 (t23 (t12 (t01 (e0 h))))
  have D05 : ∀ u, u ∈ urlsOf (stageEv ev) → u ∉ urlsOf (stage5 g a m cr ev).1 :=
    fun u h => f5 (t34 (t23 (t12 (t01 (e0 h)))))
  have D06 : ∀ u, u ∈ urlsOf (stageEv ev) → u ∉ urlsOf (stage6 g a m cr ev).1 :=
    fun u h => f6 (t45 (t34 (t23 (t12 (t01 (e0 h))))))
  have D13 : ∀ u, u ∈ urlsOf (stage1 a ev).1 → u ∉ urlsOf (stage3 g a cr ev).1 :=
    fun u h => f3 (t12 (c1 h))
  have D14 : ∀ u, u ∈ urlsOf (stage1 a ev).1 → u ∉ urlsOf (stage4 g a m cr ev).1 :=
    fun u h => f4 (t23 (t12 (c1 h)))
  have D15 : ∀ u, u ∈ urlsOf (stage1 a ev).1 → u ∉ urlsOf (stage5 g a m cr ev).1 :=
    fun u h => f5 (t34 (t23 (t12 (c1 h))))
  have D16 : ∀ u, u ∈ urlsOf (stage1 a ev).1 → u ∉ urlsOf (stage6 g a m cr ev).1 :=
    fun u h => f6 (t45 (t34 (t23 (t12 (c1 h)))))
  have D23 : ∀ u, u ∈ urlsOf (stage2 g a ev).1 → u ∉ urlsOf (stage3 g a cr ev).1 :=
    fun u h => f3 (c2 h)
  have D24 : ∀ u, u ∈ urlsOf (stage2 g a ev).1 → u ∉ urlsOf (stage4 g a m cr ev).1 :=
    fun u h => f4 (t23 (c2 h))
  have D25 : ∀ u, u ∈ urlsOf (stage2 g a ev).1 → u ∉ urlsOf (stage5 g a m cr ev).1 :=
    fun u h => f5 (t34 (t23 (c2 h)))
  have D26 : ∀ u, u ∈ urlsOf (stage2 g a ev).1 → u ∉ urlsOf (stage6 g a m cr ev).1 :=
    fun u h => f6 (t45 (t34 (t23 (c2 h))))
  have D35 : ∀ u, u ∈ urlsOf (stage3 g a cr ev).1 → u ∉ urlsOf (stage5 g a m cr ev).1 :=
    fun u h => f5 (t34 (c3 h))
  have D36 : ∀ u, u ∈ urlsOf (stage3 g a cr ev).1 → u ∉ urlsOf (stage6 g a m cr ev).1 :=
    fun u h => f6 (t45 (t34 (c3 h)))
  have D45 : ∀ u, u ∈ urlsOf (stage4 g a m cr ev).1 → u ∉ urlsOf (stage5 g a m cr ev).1 :=
    fun u h => f5 (c4 h)
  have D46 : ∀ u, u ∈ urlsOf (stage4 g a m cr ev).1 → u ∉ urlsOf (stage6 g a m cr ev).1 :=
    fun u h => f6 (t45 (c4 h))
  have D56 : ∀ u, u ∈ urlsOf (stage5 g a m cr ev).1 → u ∉ urlsOf (stage6 g a m cr ev).1 :=
    fun u h => f6 (c5 h)
  -- story-level disjointness between the five category lists, in assignment
  -- order: Events < Actors < Classic Rock < Musicians < General
  have hEA : ∀ s ∈ stageEv ev, ∀ t ∈ (stage1 a ev).1 ++ (stage2 g a ev).1,
      s.url ≠ t.url := by
    intro s hs t ht heq
    have hsu : s.url ∈ urlsOf (stageEv ev) := List.mem_map_of_mem _ hs
    rcases List.mem_append.1 ht with h | h
    · exact D01 s.url hsu (by rw [heq]; exact List.mem_map_of_mem _ h)
    · exact D02 s.url hsu (by rw [heq]; exact List.mem_map_of_mem _ h)
  have hEC : ∀ s ∈ stageEv ev, ∀ t ∈ (stage3 g a cr ev).1 ++ (stage4 g a m cr ev).1,
      s.url ≠ t.url := by
    intro s hs t ht heq
    have hsu : s.url ∈ urlsOf (stageEv ev) := List.mem_map_of_mem _ hs
    rcases List.mem_append.1 ht with h | h
    · exact D03 s.url hsu (by rw [heq]; exact List.mem_map_of_mem _ h)
    · exact D04 s.url hsu (by rw [heq]; exact List.mem_map_of_mem _ h)
  have hEM : ∀ s ∈ stageEv ev, ∀ t ∈ (stage5 g a m cr ev).1, s.url ≠ t.url := by
    intro s hs t ht heq
    exact D05 s.url (List.mem_map_of_mem _ hs) (by rw [heq]; exact List.mem_map_of_mem _ ht)
  have hEG : ∀ s ∈ stageEv ev, ∀ t ∈ (stage6 g a m cr ev).1, s.url ≠ t.url := by
    intro s hs t ht heq
    exact D06 s.url (List.mem_map_of_mem _ hs) (by rw [heq]; exact List.mem_map_of_mem _ ht)
  have hAC : ∀ s ∈ (stage1 a ev).1 ++ (stage2 g a ev).1,
      ∀ t ∈ (stage3 g a cr ev).1 ++ (stage4 g a m cr ev).1, s.url ≠ t.url := by
    intro s hs t ht heq
    rcases List.mem_append.1 hs with h1 | h1 <;> rcases List.mem_append.1 ht with h2 | h2
    · exact D13 s.url (List.mem_map_of_mem _ h1) (by rw [heq]; exact List.mem_map_of_mem _ h2)
    · exact D14 s.url (List.mem_map_of_mem _ h1) (by rw [heq]; exact List.mem_map_of_mem _ h2)
    · exact D23 s.url (List.mem_map_of_mem _ h1) (by rw [heq]; exact List.mem_map_of_mem _ h2)
    · exact D24 s.url (List.mem_map_of_mem _ h1) (by rw [heq]; exact List.mem_map_of_mem _ h2)
  have hAM : ∀ s ∈ (stage1 a ev).1 ++ (stage2 g a ev).1,
      ∀ t ∈ (stage5 g a m cr ev).1, s.url ≠ t.url := by
    intro s hs t ht heq
    rcases List.mem_append.1 hs with h1 | h1
    · exact D15 s.url (List.mem_map_of_mem _ h1) (by rw [heq]; exact List.mem_map_of_mem _ ht)
    · exact D25 s.url (List.mem_map_of_mem _ h1) (by rw [heq]; exact List.mem_map_of_mem _ ht)
  have hAG : ∀ s ∈ (stage1 a ev).1 ++ (stage2 g a ev).1,
      ∀ t ∈ (stage6 g a m cr ev).1, s.url ≠ t.url := by
    intro s hs t ht heq
    rcases List.mem_append.1 hs with h1 | h1
    · exact D16 s.url (List.mem_map_of_mem _ h1) (by rw [heq]; exact List.mem_map_of_mem _ ht)
    · exact D26 s.url (List.mem_map_of_mem _ h1) (by rw [heq]; exact List.mem_map_of_mem _ ht)
  have hCM : ∀ s ∈ (stage3 g a cr ev).1 ++ (stage4 g a m cr ev).1,
      ∀ t ∈ (stage5 g a m cr ev).1, s.url ≠ t.url := by
    intro s hs t ht heq
    rcases List.mem_append.1 hs with h1 | h1
    · exact D35 s.url (List.mem_map_of_mem _ h1) (by rw [heq]; exact List.mem_map_of_mem _ ht)
    · exact D45 s.url (List.mem_map_of_mem _ h1) (by rw [heq]; exact List.mem_map_of_mem _ ht)
  have hCG : ∀ s ∈ (stage3 g a cr ev).1 ++ (stage4 g a m cr ev).1,
      ∀ t ∈ (stage6 g a m cr ev).1, s.url ≠ t.url := by
    intro s hs t ht heq
    rcases List.mem_append.1 hs with h1 | h1
    · exact D36 s.url (List.mem_map_of_mem _ h1) (by rw [heq]; exact List.mem_map_of_mem _ ht)
    · exact D46 s.url (List.mem_map_of_mem _ h1) (by rw [heq]; exact List.mem_map_of_mem _ ht)
  have hMG : ∀ s ∈ (stage5 g a m cr ev).1, ∀ t ∈ (stage6 g a m cr ev).1,
      s.url ≠ t.url := by
    intro s hs t ht heq
    exact D56 s.url (List.mem_map_of_mem _ hs) (by rw [heq]; exact List.mem_map_of_mem _ ht)
  refine ⟨?_, ?_, ?_⟩
  · intro p₁ hp₁ p₂ hp₂ s₁ hs₁ s₂ hs₂ hne
    simp only [categorize_stories, List.mem_cons, List.not_mem_nil, or_false] at hp₁ hp₂
    rcases hp₁ with rfl | rfl | rfl | rfl | rfl <;>
      rcases hp₂ with rfl | rfl | rfl | rfl | rfl
    · exact absurd rfl hne
    · exact fun heq => hAG s₂ hs₂ s₁ hs₁ heq.symm
    · exact fun heq => hMG s₂ hs₂ s₁ hs₁ heq.symm
    · exact fun heq => hEG s₂ hs₂ s₁ hs₁ heq.symm
    · exact fun heq => hCG s₂ hs₂ s₁ hs₁ heq.symm
    · exact hAG s₁ hs₁ s₂ hs₂
    · exact absurd rfl hne
    · exact hAM s₁ hs₁ s₂ hs₂
    · exact fun heq => hEA s₂ hs₂ s₁ hs₁ heq.symm
    · exact hAC s₁ hs₁ s₂ hs₂
    · exact hMG s₁ hs₁ s₂ hs₂
    · exact fun heq => hAM s₂ hs₂ s₁ hs₁ heq.symm
    · exact absurd rfl hne
    · exact fun heq => hEM s₂ hs₂ s₁ hs₁ heq.symm
    · exact fun heq => hCM s₂ hs₂ s₁ hs₁ heq.symm
    · exact hEG s₁ hs₁ s₂ hs₂
    · exact hEA s₁ hs₁ s₂ hs₂
    · exact hEM s₁ hs₁ s₂ hs₂
    · exact absurd rfl hne
    · exact hEC s₁ hs₁ s₂ hs₂
    · exact hCG s₁ hs₁ s₂ hs₂
    · exact fun heq => hAC s₂ hs₂ s₁ hs₁ heq.symm
    · exact hCM s₁ hs₁ s₂ hs₂
    · exact fun heq => hEC s₂ hs₂ s₁ hs₁ heq.symm
    · exact absurd rfl hne
  · intro s hs
    have memG : ("General Entertainment", (stage6 g a m cr ev).1) ∈
        categorize_stories g a m cr ev := List.mem_cons_self _ _
    have memA : ("Actors & Celebrity", (stage1 a ev).1 ++ (stage2 g a ev).1) ∈
        categorize_stories g a m cr ev :=
      List.mem_cons_of_mem _ (List.mem_cons_self _ _)
    have memM : ("Musicians & Music", (stage5 g a m cr ev).1) ∈
        categorize_stories g a m cr ev :=
      List.mem_cons_of_mem _ (List.mem_cons_of_mem _ (List.mem_cons_self _ _))
    have memE : ("Edmonton Events", stageEv ev) ∈ categorize_stories g a m cr ev :=
      List.mem_cons_of_mem _ (List.mem_cons_of_mem _
        (List.mem_cons_of_mem _ (List.mem_cons_self _ _)))
    have memC : ("Classic Rock", (stage3 g a cr ev).1 ++ (stage4 g a m cr ev).1) ∈
        categorize_stories g a m cr ev :=
      List.mem_cons_of_mem _ (List.mem_cons_of_mem _
        (List.mem_cons_of_mem _ (List.mem_cons_of_mem _ (List.mem_cons_self _ _))))
    have hS6 : s.url ∈ (stage6 g a m cr ev).2 := by
      simp only [List.mem_append] at hs
      rcases hs with (((hg | ha) | hm) | hcr) | hev
      · exact assignPass_assigned_of_cond _ _ _ _ hg rfl
      · exact t56 (t45 (t34 (t23 (t12
          (assignPass_assigned_of_cond _ _ _ _ ha rfl)))))
      · exact t56 (assignPass_assigned_of_cond _ _ _ _ hm rfl)
      · exact t56 (t45 (t34 (assignPass_assigned_of_cond _ _ _ _ hcr rfl)))
      · exact t56 (t45 (t34 (t23 (t12 (t01
          (List.mem_map_of_mem _ hev))))))
    rcases stage6_assigned_cases g a m cr ev hS6 with h | h | h | h | h | h | h
    · rcases List.mem_map.1 h with ⟨t, ht, hturl⟩
      exact ⟨_, memE, t, ht, hturl⟩
    · rcases List.mem_map.1 h with ⟨t, ht, hturl⟩
      exact ⟨_, memA, t, List.mem_append_left _ ht, hturl⟩
    · rcases List.mem_map.1 h with ⟨t, ht, hturl⟩
      exact ⟨_, memA, t, List.mem_append_right _ ht, hturl⟩
    · rcases List.mem_map.1 h with ⟨t, ht, hturl⟩
      exact ⟨_, memC, t, List.mem_append_left _ ht, hturl⟩
    · rcases List.mem_map.1 h with ⟨t, ht, hturl⟩
      exact ⟨_, memC, t, List.mem_append_right _ ht, hturl⟩
    · rcases List.mem_map.1 h with ⟨t, ht, hturl⟩
      exact ⟨_, memM, t, ht, hturl⟩
    · rcases List.mem_map.1 h with ⟨t, ht, hturl⟩
      exact ⟨_, memG, t, ht, hturl⟩
  · intro p hp t ht
    have toInput : ∀ {grp : List Story}, (∀ x, x ∈ urlsOf grp → x ∈ urlsOf (g ++ a ++ m ++ cr ++ ev)) →
        t.url ∈ urlsOf grp → ∃ s ∈ g ++ a ++ m ++ cr ++ ev, s.url = t.url := by
      intro grp hsub hmem
      rcases List.mem_map.1 (hsub _ hmem) with ⟨s, hsg, hsurl⟩
      exact ⟨s, hsg, hsurl⟩
    have subg : ∀ x, x ∈ urlsOf g → x ∈ urlsOf (g ++ a ++ m ++ cr ++ ev) := by
      intro x hx
      simp only [urlsOf_append, List.mem_append]
      exact Or.inl (Or.inl (Or.inl (Or.inl hx)))
    have suba : ∀ x, x ∈ urlsOf a → x ∈ urlsOf (g ++ a ++ m ++ cr ++ ev) := by
      intro x hx
      simp only [urlsOf_append, List.mem_append]
      exact Or.inl (Or.inl (Or.inl (Or.inr hx)))
    have subm : ∀ x, x ∈ urlsOf m → x ∈ urlsOf (g ++ a ++ m ++ cr ++ ev) := by
      intro x hx
      simp only [urlsOf_append, List.mem_append]
      exact Or.inl (Or.inl (Or.inr hx))
    have subcr : ∀ x, x ∈ urlsOf cr → x ∈ urlsOf (g ++ a ++ m ++ cr ++ ev) := by
      intro x hx
      simp only [urlsOf_append, List.mem_append]
      exact Or.inl (Or.inr hx)
    have subev : ∀ x, x ∈ urlsOf ev → x ∈ urlsOf (g ++ a ++ m ++ cr ++ ev) := by
      intro x hx
      simp only [urlsOf_append, List.mem_append]
      exact Or.inr hx
    simp only [categorize_stories, List.mem_cons, List.not_mem_nil, or_false] at hp
    rcases hp with rfl | rfl | rfl | rfl | rfl
    · exact toInput subg (assignPass_out_sub_input _ _ _ _ (List.mem_map_of_mem _ ht))
    · rcases List.mem_append.1 ht with h | h
      · exact toInput suba (assignPass_out_sub_input _ _ _ _ (List.mem_map_of_mem _ h))
      · exact toInput subg (assignPass_out_sub_input _ _ _ _ (List.mem_map_of_mem _ h))
    · exact toInput subm (assignPass_out_sub_input _ _ _ _ (List.mem_map_of_mem _ ht))
    · refine toInput subev ?_
      have h2 : t.url ∈ asEv ev := urlsOf_stageEv ev ▸ List.mem_map_of_mem _ ht
      exact h2
    · rcases List.mem_append.1 ht with h | h
      · exact toInput subcr (assignPass_out_sub_input _ _ _ _ (List.mem_map_of_mem _ h))
      · exact toInput subm (assignPass_out_sub_input _ _ _ _ (List.mem_map_of_mem _ h))

/-- The assigned set after a pass is bounded by the incoming assigned set
plus the pass input URLs. -/
theorem assignPass_assigned_sub (cat : String) (cond : Story → Bool)
    (l : List Story) (as : List String) {u : String}
    (h : u ∈ (assignPass cat cond l as).2) : u ∈ as ∨ u ∈ urlsOf l := by
  rcases (assignPass_assigned_iff cat cond l as u).1 h with h0 | h1
  · exact Or.inl h0
  · exact Or.inr (assignPass_out_sub_input cat cond l as h1)

theorem catList_GE (g a m cr ev : List Story) :
    catList (categorize_stories g a m cr ev) "General Entertainment" =
      (stage6 g a m cr ev).1 := rfl

theorem catList_AC (g a m cr ev : List Story) :
    catList (categorize_stories g a m cr ev) "Actors & Celebrity" =
      (stage1 a ev).1 ++ (stage2 g a ev).1 := rfl

theorem catList_MM (g a m cr ev : List Story) :
    catList (categorize_stories g a m cr ev) "Musicians & Music" =
      (stage5 g a m cr ev).1 := rfl

theorem catList_EE (g a m cr ev : List Story) :
    catList (categorize_stories g a m cr ev) "Edmonton Events" = stageEv ev := rfl

theorem catList_CR (g a m cr ev : List Story) :
    catList (categorize_stories g a m cr ev) "Classic Rock" =
      (stage3 g a cr ev).1 ++ (stage4 g a m cr ev).1 := rfl

/-- The general story of the C2 scenario (`https://variety.com/1`). -/
def varietyStory : Story :=
  { url := "https://variety.com/1", title := "Star lands casting role", summary := "" }

/-- The music story of the C2 scenario (`https://rollingstone.com/1`). -/
def rollingStoneStory : Story :=
  { url := "https://rollingstone.com/1", title := "Led Zeppelin remaster" }

/-- C2: cross-filter promotion moves and never copies.  A general-group
story matching an Actor keyword whose URL is not already assigned (not an
events or actors URL) lands in Actors & Celebrity and not in General
Entertainment; a music-group story matching a Classic-Rock keyword whose
URL is not already assigned lands in Classic Rock and not in Musicians &
Music; and the two concrete spec scenarios hold. -/
theorem categorize_stories_cross_filter (g a m cr ev : List Story) :
    (∀ s ∈ g, _matches_keywords s ACTOR_KEYWORDS = true →
      s.url ∉ urlsOf ev → s.url ∉ urlsOf a →
      s.url ∈ urlsOf (catList (categorize_stories g a m cr ev) "Actors & Celebrity") ∧
      s.url ∉ urlsOf (catList (categorize_stories g a m cr ev) "General Entertainment")) ∧
    (∀ s ∈ m, _matches_keywords s CLASSIC_ROCK_KEYWORDS = true →
      s.url ∉ urlsOf ev → s.url ∉ urlsOf a → s.url ∉ urlsOf g → s.url ∉ urlsOf cr →
      s.url ∈ urlsOf (catList (categorize_stories g a m cr ev) "Classic Rock") ∧
      s.url ∉ urlsOf (catList (categorize_stories g a m cr ev) "Musicians & Music")) ∧
    ((catList (categorize_stories [varietyStory] [] [] [] [])
        "General Entertainment").length = 0 ∧
      urlsOf (catList (categorize_stories [varietyStory] [] [] [] [])
        "Actors & Celebrity") = ["https://variety.com/1"]) ∧
    ((catList (categorize_stories [] [] [rollingStoneStory] [] [])
        "Musicians & Music").length = 0 ∧
      urlsOf (catList (categorize_stories [] [] [rollingStoneStory] [] [])
        "Classic Rock") = ["https://rollingstone.com/1"]) := by
  refine ⟨?_, ?_, by decide, by decide⟩
  · intro s hs hmatch hnev hna
    have hS1 : s.url ∉ (stage1 a ev).2 := by
      intro h
      rcases assignPass_assigned_sub _ _ _ _ h with h0 | h1
      · exact hnev h0
      · exact hna h1
    have hin : s.url ∈ urlsOf (stage2 g a ev).1 :=
      assignPass_out_mem _ _ g _ hs hmatch hS1
    constructor
    · rw [catList_AC, urlsOf_append]
      exact List.mem_append_right _ hin
    · rw [catList_GE]
      exact stage6_fresh g a m cr ev
        (stage5_mono g a m cr ev (stage4_mono g a m cr ev
          (stage3_mono g a cr ev (stage2_cont g a ev hin))))
  · intro s hs hmatch hnev hna hng hncr
    have hS3 : s.url ∉ (stage3 g a cr ev).2 := by
      intro h
      rcases assignPass_assigned_sub _ _ _ _ h with h2 | h1
      · rcases assignPass_assigned_sub _ _ _ _ h2 with h3 | h4
        · rcases assignPass_assigned_sub _ _ _ _ h3 with h5 | h6
          · exact hnev h5
          · exact hna h6
        · exact hng h4
      · exact hncr h1
    have hin : s.url ∈ urlsOf (stage4 g a m cr ev).1 :=
      assignPass_out_mem _ _ m _ hs hmatch hS3
    constructor
    · rw [catList_CR, urlsOf_append]
      exact List.mem_append_right _ hin
    · rw [catList_MM]
      exact stage5_fresh g a m cr ev (stage4_cont g a m cr ev hin)

/-- Lexicographic `≤` on code-point sequences: exactly how Python compares
the `published` strings (first differing code point decides, a strict
prefix is smaller). -/
def lexLe : List Char → List Char → Bool
  | [], _ => true
  | _ :: _, [] => false
  | a :: as, b :: bs =>
    if a.toNat < b.toNat then true
    else if b.toNat < a.toNat then false
    else lexLe as bs

theorem lexLe_refl (x : List Char) : lexLe x x = true := by
  induction x with
  | nil => rfl
  | cons a as ih => simp [lexLe, ih]

theorem lexLe_total (x y : List Char) : lexLe x y = true ∨ lexLe y x = true := by
  induction x generalizing y with
  | nil => exact Or.inl rfl
  | cons a as ih =>
    cases y with
    | nil => exact Or.inr rfl
    | cons b bs =>
      rcases Nat.lt_trichotomy a.toNat b.toNat with h | h | h
      · exact Or.inl (by simp [lexLe, h])
      · have h2 : ¬ a.toNat < b.toNat := by omega
        have h3 : ¬ b.toNat < a.toNat := by omega
        rcases ih bs with hle | hle
        · exact Or.inl (by simp [lexLe, h2, h3, hle])
        · exact Or.inr (by simp [lexLe, h2, h3, hle])
      · exact Or.inr (by simp [lexLe, h])

theorem lexLe_trans {x y z : List Char} (h1 : lexLe x y = true)
    (h2 : lexLe y z = true) : lexLe x z = true := by
  induction x generalizing y z with
  | nil => rfl
  | cons a as ih =>
    cases y with
    | nil => simp [lexLe] at h1
    | cons b bs =>
      cases z with
      | nil => simp [lexLe] at h2
      | cons c cs =>
        simp only [lexLe] at h1 h2 ⊢
        rcases Nat.lt_trichotomy a.toNat b.toNat with hab | hab | hab <;>
          rcases Nat.lt_trichotomy b.toNat c.toNat with hbc | hbc | hbc
        · have hac : a.toNat < c.toNat := by omega
          simp [hac]
        · have hac : a.toNat < c.toNat := by omega
          simp [hac]
        · have h3 : ¬ b.toNat < c.toNat := by omega
          simp [h3, hbc] at h2
        · have hac : a.toNat < c.toNat := by omega
          simp [hac]
        · have h3 : ¬ a.toNat < b.toNat := by omega
          have h4 : ¬ b.toNat < a.toNat := by omega
          have h5 : ¬ b.toNat < c.toNat := by omega
          have h6 : ¬ c.toNat < b.toNat := by omega
          have h7 : ¬ a.toNat < c.toNat := by omega
          have h8 : ¬ c.toNat < a.toNat := by omega
          simp only [h3, h4, if_false, if_neg] at h1
          simp only [h5, h6, if_false, if_neg] at h2
          simp only [h7, h8, if_false, if_neg]
          exact ih h1 h2
        · have h5 : ¬ b.toNat < c.toNat := by omega
          simp [h5, hbc] at h2
        · have h3 : ¬ a.toNat < b.toNat := by omega
          simp [h3, hab] at h1
        · have h3 : ¬ a.toNat < b.toNat := by omega
          simp [h3, hab] at h1
        · have h3 : ¬ a.toNat < b.toNat := by omega
          simp [h3, hab] at h1

theorem lexLe_nil_right {x : List Char} (h : lexLe x [] = true) : x = [] := by
  cases x with
  | nil => rfl
  | cons a as => simp [lexLe] at h

/-- The ranking key of `sort_and_limit`: `s.get("published", "")`. -/
def pkey (s : Story) : String := s.published.getD ""

/-- `keyLe s t` iff `s`'s key compares `≤` `t`'s key as Python compares
the strings. -/
def keyLe (s t : Story) : Bool := lexLe (pkey s).data (pkey t).data

/-- Insert a story into a descending-sorted list, before the first entry
whose key is `≤` its own: together with `sortDesc` this is the stable
descending sort that `sorted(stories, key=..., reverse=True)` performs. -/
def insertD (s : Story) : List Story → List Story
  | [] => [s]
  | t :: ts => if keyLe t s then s :: t :: ts else t :: insertD s ts

/-- `sorted(stories, key=lambda s: s.get("published", ""), reverse=True)`:
stable descending sort by `pkey`. -/
def sortDesc (l : List Story) : List Story := l.foldr insertD []

/-- `filters.sort_and_limit`: per category, sort newest-first and truncate
to `STORIES_PER_CATEGORY`. -/
def sort_and_limit (mp : List (String × List Story)) : List (String × List Story) :=
  mp.map fun p => (p.1, (sortDesc p.2).take STORIES_PER_CATEGORY)

theorem mem_insertD {x s : Story} {l : List Story} :
    x ∈ insertD s l ↔ x = s ∨ x ∈ l := by
  induction l with
  | nil => simp [insertD]
  | cons t ts ih =>
    by_cases hc : keyLe t s
    · simp [insertD, hc]
    · simp [insertD, hc, ih]
      tauto

theorem insertD_perm (s : Story) (l : List Story) : (insertD s l).Perm (s :: l) := by
  induction l with
  | nil => simp [insertD]
  | cons t ts ih =>
    by_cases hc : keyLe t s
    · simp [insertD, hc]
    · simp only [insertD, if_neg hc]
      exact (ih.cons t).trans (List.Perm.swap s t ts)

theorem insertD_pairwise {l : List Story}
    (h : l.Pairwise fun s t => keyLe t s = true) (s : Story) :
    (insertD s l).Pairwise fun s t => keyLe t s = true := by
  induction l with
  | nil => simp [insertD]
  | cons t ts ih =>
    rcases List.pairwise_cons.1 h with ⟨h1, h2⟩
    by_cases hc : keyLe t s
    · simp only [insertD, if_pos hc]
      refine List.pairwise_cons.2 ⟨?_, h⟩
      intro x hx
      rcases List.mem_cons.1 hx with rfl | hx2
      · exact hc
      · exact lexLe_trans (h1 x hx2) hc
    · simp only [insertD, if_neg hc]
      refine List.pairwise_cons.2 ⟨?_, ih h2⟩
      intro x hx
      rcases mem_insertD.1 hx with rfl | hx2
      · rcases lexLe_total (pkey x).data (pkey t).data with hle | hle
        · exact hle
        · exact absurd hle hc
      · exact h1 x hx2

theorem insertD_filter (k : String) (s : Story) (l : List Story)
    (hsorted : l.Pairwise fun s t => keyLe t s = true) :
    (insertD s l).filter (fun t => pkey t == k) =
      if pkey s == k then s :: l.filter (fun t => pkey t == k)
      else l.filter (fun t => pkey t == k) := by
  induction l with
  | nil => by_cases hk : pkey s = k <;> simp [insertD, List.filter_cons, hk, beq_iff_eq]
  | cons t ts ih =>
    rcases List.pairwise_cons.1 hsorted with ⟨_, h2⟩
    by_cases hc : keyLe t s
    · simp only [insertD, if_pos hc]
      by_cases hk : pkey s = k <;> by_cases htk : pkey t = k <;>
        simp [List.filter_cons, hk, htk, beq_iff_eq]
    · simp only [insertD, if_neg hc]
      by_cases hk : pkey s = k
      · have htk : ¬ (pkey t = k) := by
          intro htk
          apply hc
          have hdata : (pkey s).data = (pkey t).data := by rw [hk, htk]
          unfold keyLe
          rw [hdata]
          exact lexLe_refl _
        simp only [List.filter_cons, ih h2]
        simp [hk, htk, beq_iff_eq]
      · simp only [List.filter_cons, ih h2]
        by_cases htk : pkey t = k <;> simp [hk, htk, beq_iff_eq]

theorem sortDesc_perm (l : List Story) : (sortDesc l).Perm l := by
  induction l with
  | nil => exact List.Perm.refl _
  | cons s ts ih =>
    exact (insertD_perm s (sortDesc ts)).trans (ih.cons s)

theorem sortDesc_pairwise (l : List Story) :
    (sortDesc l).Pairwise fun s t => keyLe t s = true := by
  induction l with
  | nil => simp [sortDesc]
  | cons s ts ih => exact insertD_pairwise ih s

theorem sortDesc_filter (l : List Story) (k : String) :
    (sortDesc l).filter (fun t => pkey t == k) = l.filter (fun t => pkey t == k) := by
  induction l with
  | nil => rfl
  | cons s ts ih =>
    have : sortDesc (s :: ts) = insertD s (sortDesc ts) := rfl
    rw [this, insertD_filter k s (sortDesc ts) (sortDesc_pairwise ts)]
    by_cases hk : pkey s = k <;> simp [List.filter_cons, hk, ih, beq_iff_eq]

theorem data_eq_nil {s : String} (h : s.data = []) : s = "" := by
  cases s with
  | mk data =>
    subst h
    rfl

/-- C4: `sort_and_limit` sorts each category by the `published` string in
descending lexicographic order with a stable sort: the output is a
permutation of the input, keys are non-increasing, items with equal key
keep their input order (the filter at any key value is unchanged), a
missing `published` gets the lexicographically smallest key `""` and such
items only precede items that also have key `""` (they sink to the end),
and the head of a non-empty output category has a key `≥` every later
item's. -/
theorem sort_and_limit_sorts (mp : List (String × List Story)) :
    (∀ l : List Story, (sortDesc l).Perm l ∧
        ((sortDesc l).Pairwise fun s t => keyLe t s = true) ∧
        ∀ k, (sortDesc l).filter (fun t => pkey t == k) =
          l.filter (fun t => pkey t == k)) ∧
    (∀ s : Story, s.published = none → pkey s = "") ∧
    (∀ s t : Story, pkey s = "" → keyLe s t = true) ∧
    (∀ l : List Story, (sortDesc l).Pairwise fun s t => pkey s = "" → pkey t = "") ∧
    (∀ p ∈ sort_and_limit mp, (p.2.Pairwise fun s t => keyLe t s = true) ∧
        ∀ h t, p.2 = h :: t → ∀ s ∈ t, keyLe s h = true) := by
  refine ⟨?_, ?_, ?_, ?_, ?_⟩
  · intro l
    exact ⟨sortDesc_perm l, sortDesc_pairwise l, fun k => sortDesc_filter l k⟩
  · intro s h
    simp [pkey, h]
  · intro s t h
    unfold keyLe
    rw [h]
    rfl
  · intro l
    refine (sortDesc_pairwise l).imp ?_
    intro x y h hx
    unfold keyLe at h
    rw [hx] at h
    exact data_eq_nil (lexLe_nil_right h)
  · intro p hp
    rcases List.mem_map.1 hp with ⟨q, hq, rfl⟩
    have hpw : ((sortDesc q.2).take STORIES_PER_CATEGORY).Pairwise
        fun s t => keyLe t s = true :=
      (sortDesc_pairwise q.2).sublist (List.take_sublist _ _)
    refine ⟨hpw, ?_⟩
    intro h t hpt s hs
    have hpt2 : List.take STORIES_PER_CATEGORY (sortDesc q.2) = h :: t := hpt
    rw [hpt2] at hpw
    exact (List.pairwise_cons.1 hpw).1 s hs

/-- The 15 distinct descending `published` dates of the C5 scenario. -/
def descDates : List String :=
  ["2026-02-18", "2026-02-17", "2026-02-16", "2026-02-15", "2026-02-14",
   "2026-02-13", "2026-02-12", "2026-02-11", "2026-02-10", "2026-02-09",
   "2026-02-08", "2026-02-07", "2026-02-06", "2026-02-05", "2026-02-04"]

/-- 15 stories with distinct descending `published` values. -/
def fifteenStories : List Story :=
  descDates.map fun d => { url := d, published := some d }

/-- C5: every output category of `sort_and_limit` has at most
`STORIES_PER_CATEGORY = 10` items; and 15 items with distinct descending
dates `2026-02-18` down to `2026-02-04` are truncated to exactly the 10
newest, the `2026-02-18` item first. -/
theorem sort_and_limit_limits (mp : List (String × List Story)) :
    (∀ p ∈ sort_and_limit mp, p.2.length ≤ STORIES_PER_CATEGORY) ∧
    catList (sort_and_limit [("General Entertainment", fifteenStories)])
      "General Entertainment" = fifteenStories.take 10 ∧
    (catList (sort_and_limit [("General Entertainment", fifteenStories)])
      "General Entertainment").length = 10 ∧
    (catList (sort_and_limit [("General Entertainment", fifteenStories)])
      "General Entertainment").head? =
      some { url := "2026-02-18", published := some "2026-02-18" } := by
  refine ⟨?_, by decide, by decide, by decide⟩
  intro p hp
  rcases List.mem_map.1 hp with ⟨q, hq, rfl⟩
  have : ((sortDesc q.2).take STORIES_PER_CATEGORY).length =
      min STORIES_PER_CATEGORY (sortDesc q.2).length := List.length_take _ _
  rw [this]
  exact min_le_left _ _

/-! ### SHA-256 (`hashlib.sha256`), on byte lists as `Nat` -/

/-- Truncate to a 32-bit word. -/
def w32 (x : Nat) : Nat := x % 4294967296

/-- 32-bit right rotation. -/
def rotr (n x : Nat) : Nat := w32 ((x >>> n) ||| (x <<< (32 - n)))

/-- SHA-256 small sigma 0. -/
def ssig0 (x : Nat) : Nat := rotr 7 x ^^^ rotr 18 x ^^^ (x >>> 3)

/-- SHA-256 small sigma 1. -/
def ssig1 (x : Nat) : Nat := rotr 17 x ^^^ rotr 19 x ^^^ (x >>> 10)

/-- SHA-256 big sigma 0. -/
def bsig0 (x : Nat) : Nat := rotr 2 x ^^^ rotr 13 x ^^^ rotr 22 x

/-- SHA-256 big sigma 1. -/
def bsig1 (x : Nat) : Nat := rotr 6 x ^^^ rotr 11 x ^^^ rotr 25 x

/-- SHA-256 choice function. -/
def chBits (e f g : Nat) : Nat := (e &&& f) ^^^ ((4294967295 ^^^ e) &&& g)

/-- SHA-256 majority function. -/
def majBits (a b c : Nat) : Nat := (a &&& b) ^^^ (a &&& c) ^^^ (b &&& c)

/-- The 64 SHA-256 round constants. -/
def K256 : List Nat :=
  [1116352408, 1899447441, 3049323471, 3921009573,
   961987163, 1508970993, 2453635748, 2870763221,
   3624381080, 310598401, 607225278, 1426881987,
   1925078388, 2162078206, 2614888103, 3248222580,
   3835390401, 4022224774, 264347078, 604807628,
   770255983, 1249150122, 1555081692, 1996064986,
   2554220882, 2821834349, 2952996808, 3210313671,
   3336571891, 3584528711, 113926993, 338241895,
   666307205, 773529912, 1294757372, 1396182291,
   1695183700, 1986661051, 2177026350, 2456956037,
   2730485921, 2820302411, 3259730800, 3345764771,
   3516065817, 3600352804, 4094571909, 275423344,
   430227734, 506948616, 659060556, 883997877,
   958139571, 1322822218, 1537002063, 1747873779,
   1955562222, 2024104815, 2227730452, 2361852424,
   2428436474, 2756734187, 3204031479, 3329325298]

/-- The SHA-256 state: eight 32-bit words. -/
structure Hash8 where
  a : Nat
  b : Nat
  c : Nat
  d : Nat
  e : Nat
  f : Nat
  g : Nat
  h : Nat
deriving Repr, DecidableEq

/-- The SHA-256 initial state. -/
def H0 : Hash8 :=
  ⟨1779033703, 3144134277, 1013904242, 2773480762,
   1359893119, 2600822924, 528734635, 1541459225⟩

/-- Big-endian 8-byte rendering of the bit length. -/
def be8 (x : Nat) : List Nat :=
  [(x >>> 56) % 256, (x >>> 48) % 256, (x >>> 40) % 256, (x >>> 32) % 256,
   (x >>> 24) % 256, (x >>> 16) % 256, (x >>> 8) % 256, x % 256]

/-- SHA-256 padding: `0x80`, zeros to 56 mod 64, then the 64-bit length. -/
def padMsg (msg : List Nat) : List Nat :=
  let len := msg.length
  let padZeros := (64 + 55 - len % 64) % 64
  msg ++ 128 :: (List.replicate padZeros 0 ++ be8 (8 * len))

/-- Split into 64-byte blocks (fuel-driven; the fuel bounds the count). -/
def chunk64 : Nat → List Nat → List (List Nat)
  | 0, _ => []
  | _ + 1, [] => []
  | n + 1, l => l.take 64 :: chunk64 n (l.drop 64)

/-- The 64-byte blocks of a padded message. -/
def blocksOf (l : List Nat) : List (List Nat) := chunk64 (l.length / 64 + 1) l

/-- The first 16 schedule words of a block, big-endian. -/
def word16 (block : List Nat) : List Nat :=
  (List.range 16).map fun i =>
    (block.getD (4 * i) 0) <<< 24 + (block.getD (4 * i + 1) 0) <<< 16 +
      (block.getD (4 * i + 2) 0) <<< 8 + block.getD (4 * i + 3) 0

/-- Extend the message schedule by `n` more words. -/
def extendW : Nat → List Nat → List Nat
  | 0, ws => ws
  | n + 1, ws =>
    let len := ws.length
    let w := w32 (ssig1 (ws.getD (len - 2) 0) + ws.getD (len - 7) 0 +
      ssig0 (ws.getD (len - 15) 0) + ws.getD (len - 16) 0)
    extendW n (ws ++ [w])

/-- The 64-word message schedule of a block. -/
def msgSchedule (block : List Nat) : List Nat := extendW 48 (word16 block)

/-- One SHA-256 round. -/
def roundStep (st : Hash8) (kw : Nat × Nat) : Hash8 :=
  let t1 := w32 (st.h + bsig1 st.e + chBits st.e st.f st.g + kw.1 + kw.2)
  let t2 := w32 (bsig0 st.a + majBits st.a st.b st.c)
  { a := w32 (t1 + t2), b := st.a, c := st.b, d := st.c,
    e := w32 (st.d + t1), f := st.e, g := st.f, h := st.g }

/-- Compress one 64-byte block into the state. -/
def compressBlock (st : Hash8) (block : List Nat) : Hash8 :=
  let r := (K256.zip (msgSchedule block)).foldl roundStep st
  { a := w32 (st.a + r.a), b := w32 (st.b + r.b), c := w32 (st.c + r.c),
    d := w32 (st.d + r.d), e := w32 (st.e + r.e), f := w32 (st.f + r.f),
    g := w32 (st.g + r.g), h := w32 (st.h + r.h) }

/-- Big-endian 4-byte rendering of a 32-bit word. -/
def be4 (x : Nat) : List Nat :=
  [(x >>> 24) % 256, (x >>> 16) % 256, (x >>> 8) % 256, x % 256]

/-- The 32 digest bytes of a final state. -/
def digestBytes (st : Hash8) : List Nat :=
  be4 st.a ++ be4 st.b ++ be4 st.c ++ be4 st.d ++
    be4 st.e ++ be4 st.f ++ be4 st.g ++ be4 st.h

/-- SHA-256 of a byte list. -/
def sha256 (msg : List Nat) : List Nat :=
  digestBytes ((blocksOf (padMsg msg)).foldl compressBlock H0)

/-- The lowercase hex digit for `n` (`'0'` when out of range). -/
def hexChar (n : Nat) : Char := "0123456789abcdef".data.getD n '0'

/-- Lowercase hex rendering of a byte list, two digits per byte. -/
def hexOfBytes (l : List Nat) : List Char :=
  l.flatMap fun b => [hexChar (b / 16), hexChar (b % 16)]

/-- `.hexdigest()`: the lowercase-hex SHA-256 digest as a string. -/
def sha256hex (msg : List Nat) : String := ⟨hexOfBytes (sha256 msg)⟩

/-- UTF-8 encoding of one character (`str.encode`). -/
def utf8EncodeCharNat (c : Char) : List Nat :=
  let n := c.toNat
  if n < 128 then [n]
  else if n < 2048 then [192 ||| (n >>> 6), 128 ||| (n &&& 63)]
  else if n < 65536 then
    [224 ||| (n >>> 12), 128 ||| ((n >>> 6) &&& 63), 128 ||| (n &&& 63)]
  else
    [240 ||| (n >>> 18), 128 ||| ((n >>> 12) &&& 63),
     128 ||| ((n >>> 6) &&& 63), 128 ||| (n &&& 63)]

/-- `str.encode()`: the UTF-8 bytes of a string. -/
def utf8Bytes (s : String) : List Nat := s.data.flatMap utf8EncodeCharNat

/-- The characters Python's `str.strip()` removes (code points with
`str.isspace()` true). -/
def isPySpace (c : Char) : Bool :=
  c.toNat ∈ [9, 10, 11, 12, 13, 28, 29, 30, 31, 32, 133, 160, 5760,
    8192, 8193, 8194, 8195, 8196, 8197, 8198, 8199, 8200, 8201, 8202,
    8232, 8233, 8239, 8287, 12288]

/-- `str.strip()`: drop whitespace from both ends. -/
def pyStrip (s : String) : String :=
  ⟨((s.data.dropWhile isPySpace).reverse.dropWhile isPySpace).reverse⟩

/-- `database.url_hash`: `hashlib.sha256(url.strip().encode()).hexdigest()`. -/
def url_hash (url : String) : String := sha256hex (utf8Bytes (pyStrip url))

/-! ### The dedup ledger (`sent_stories` table) -/

/-- SQLite's BINARY TEXT comparison `a < b` (byte-wise memcmp; on these
ASCII timestamps, code-point lexicographic). -/
def strLt (a b : String) : Bool := !(lexLe b.data a.data)

/-- One row of `sent_stories`: `sent_at` is the TEXT the column default
`datetime('now')` writes, `YYYY-MM-DD HH:MM:SS` in UTC. -/
structure SentStory where
  url_hash : String
  url : String
  title : String
  category : String
  sent_at : String
deriving Repr, DecidableEq

/-- `database.get_sent_hashes`: all sent URL hashes. -/
def get_sent_hashes (ledger : List SentStory) : List String :=
  ledger.map SentStory.url_hash

/-- `database.mark_stories_sent`: insert one row per story; a row whose
hash is already present (the `UNIQUE` constraint) is silently skipped and
not counted.  Returns the ledger and the inserted count.  `now` is the
`datetime('now')` text the `sent_at` column default assigns. -/
def mark_stories_sent : List Story → List SentStory → String → List SentStory × Nat
  | [], ledger, _ => (ledger, 0)
  | s :: rest, ledger, now =>
    if url_hash s.url ∈ get_sent_hashes ledger then
      mark_stories_sent rest ledger now
    else
      let r := mark_stories_sent rest
        (ledger ++ [{ url_hash := url_hash s.url, url := s.url, title := s.title,
                      category := s.category, sent_at := now }]) now
      (r.1, r.2 + 1)

/-- `DELETE FROM sent_stories WHERE sent_at < cutoff` as SQLite runs it:
TEXT comparison of each row's `sent_at` against the cutoff string, with
the deleted count (`cursor.rowcount`). -/
def deleteOlder (cutoff : String) : List SentStory → List SentStory × Nat
  | [] => ([], 0)
  | e :: rest =>
    let r := deleteOlder cutoff rest
    if strLt e.sent_at cutoff then (r.1, r.2 + 1) else (e :: r.1, r.2)

/-- `database.cleanup_old_stories`: run the DELETE with the cutoff string
the code computes as
`(datetime.now(timezone.utc) - timedelta(days=DEDUP_RETENTION_DAYS)).isoformat()`,
i.e. `YYYY-MM-DDTHH:MM:SS.ffffff+00:00` — with a `T` separator and UTC
offset, unlike the `YYYY-MM-DD HH:MM:SS` the stored rows carry.  Returns
the kept ledger and the deleted count. -/
def cleanup_old_stories (ledger : List SentStory) (cutoff : String) : List SentStory × Nat :=
  deleteOlder cutoff ledger

/-- The per-category loop of `filters.dedup_stories`: drop stories whose
URL hash is in `sent`, and stories whose URL was already kept (`seen`). -/
def dedupRun (sent : List String) (seen : List String) : List Story → List Story
  | [] => []
  | s :: rest =>
    if url_hash s.url ∈ sent then dedupRun sent seen rest
    else if s.url ∈ seen then dedupRun sent seen rest
    else s :: dedupRun sent (s.url :: seen) rest

/-- `filters.dedup_stories`: apply the dedup pass to every category of a
categorized mapping (the `sent` hashes are the `get_sent_hashes()` read). -/
def dedup_stories (categorized : List (String × List Story)) (sent : List String) :
    List (String × List Story) :=
  categorized.map fun p => (p.1, dedupRun sent [] p.2)

theorem dropWhile_append_of_forall {p : Char → Bool} {w l : List Char}
    (h : ∀ c ∈ w, p c = true) : (w ++ l).dropWhile p = l.dropWhile p := by
  induction w with
  | nil => rfl
  | cons c cs ih =>
    have hc : p c = true := h c (List.mem_cons_self _ _)
    simp only [List.cons_append, List.dropWhile_cons, hc, if_true]
    exact ih fun x hx => h x (List.mem_cons_of_mem _ hx)

theorem dropWhile_append_left {p : Char → Bool} {l l2 : List Char}
    (h : l.dropWhile p ≠ []) : (l ++ l2).dropWhile p = l.dropWhile p ++ l2 := by
  induction l with
  | nil => exact absurd rfl h
  | cons c cs ih =>
    by_cases hc : p c = true
    · rw [List.dropWhile_cons, if_pos hc] at h
      simp only [List.cons_append, List.dropWhile_cons, hc, if_true]
      exact ih h
    · simp [List.dropWhile_cons, hc]

theorem pyStrip_pad (u w1 w2 : String)
    (h1 : ∀ c ∈ w1.data, isPySpace c = true)
    (h2 : ∀ c ∈ w2.data, isPySpace c = true) :
    pyStrip (w1 ++ u ++ w2) = pyStrip u := by
  have hdata : (w1 ++ u ++ w2).data = w1.data ++ (u.data ++ w2.data) := by
    simp [String.data_append]
  unfold pyStrip
  rw [hdata, dropWhile_append_of_forall h1]
  by_cases hu : u.data.dropWhile isPySpace = []
  · have hall : ∀ c ∈ u.data, isPySpace c = true := List.dropWhile_eq_nil_iff.1 hu
    rw [dropWhile_append_of_forall hall, hu]
    have hw2 : w2.data.dropWhile isPySpace = [] := List.dropWhile_eq_nil_iff.2 h2
    rw [hw2]
  · rw [dropWhile_append_left hu]
    have hrev : ∀ c ∈ w2.data.reverse, isPySpace c = true := by
      intro c hc
      exact h2 c (List.mem_reverse.1 hc)
    rw [List.reverse_append, dropWhile_append_of_forall hrev]

theorem hexChar_mem (n : Nat) : hexChar n ∈ "0123456789abcdef".data := by
  unfold hexChar
  by_cases h : n < ("0123456789abcdef".data).length
  · rw [List.getD_eq_getElem _ _ h]
    exact List.getElem_mem h
  · rw [List.getD_eq_default _ _ (Nat.le_of_not_lt h)]
    decide

theorem hexOfBytes_length (l : List Nat) : (hexOfBytes l).length = 2 * l.length := by
  induction l with
  | nil => rfl
  | cons b bs ih =>
    simp only [hexOfBytes, List.flatMap_cons] at ih ⊢
    simp [ih]
    omega

theorem hexOfBytes_mem (l : List Nat) :
    ∀ c ∈ hexOfBytes l, c ∈ "0123456789abcdef".data := by
  induction l with
  | nil => intro c hc; cases hc
  | cons b bs ih =>
    intro c hc
    simp only [hexOfBytes, List.flatMap_cons, List.mem_append] at hc
    rcases hc with hc | hc
    · rcases List.mem_cons.1 hc with rfl | hc2
      · exact hexChar_mem _
      · rcases List.mem_cons.1 hc2 with rfl | hc3
        · exact hexChar_mem _
        · cases hc3
    · exact ih c hc

theorem sha256_length (msg : List Nat) : (sha256 msg).length = 32 := by
  simp [sha256, digestBytes, be4]

/-- C9: `url_hash` is the lowercase 64-hex-character SHA-256 digest of the
trimmed URL; it is deterministic (a function of the URL alone) and
invariant under any leading and trailing whitespace padding. -/
theorem url_hash_spec (u w1 w2 : String)
    (h1 : ∀ c ∈ w1.data, isPySpace c = true)
    (h2 : ∀ c ∈ w2.data, isPySpace c = true) :
    url_hash (w1 ++ u ++ w2) = url_hash u ∧
    url_hash u = sha256hex (utf8Bytes (pyStrip u)) ∧
    (url_hash u).length = 64 ∧
    ∀ c ∈ (url_hash u).data, c ∈ "0123456789abcdef".data := by
  refine ⟨?_, rfl, ?_, ?_⟩
  · unfold url_hash
    rw [pyStrip_pad u w1 w2 h1 h2]
  · show (hexOfBytes (sha256 (utf8Bytes (pyStrip u)))).length = 64
    rw [hexOfBytes_length, sha256_length]
  · intro c hc
    exact hexOfBytes_mem _ c hc

theorem dedupRun_sublist (sent seen : List String) (l : List Story) :
    (dedupRun sent seen l).Sublist l := by
  induction l generalizing seen with
  | nil => exact List.Sublist.refl _
  | cons x rest ih =>
    by_cases h1 : url_hash x.url ∈ sent
    · simp only [dedupRun, if_pos h1]
      exact (ih seen).cons x
    · by_cases h2 : x.url ∈ seen
      · simp only [dedupRun, if_neg h1, if_pos h2]
        exact (ih seen).cons x
      · simp only [dedupRun, if_neg h1, if_neg h2]
        exact (ih (x.url :: seen)).cons₂ x

theorem dedupRun_keeps (sent seen : List String) (l : List Story) :
    ∀ s ∈ dedupRun sent seen l, url_hash s.url ∉ sent ∧ s.url ∉ seen ∧
      l.find? (fun t => t.url == s.url) = some s := by
  induction l generalizing seen with
  | nil => intro s hs; cases hs
  | cons x rest ih =>
    intro s hs
    by_cases h1 : url_hash x.url ∈ sent
    · rw [dedupRun, if_pos h1] at hs
      obtain ⟨hsent, hseen, hfind⟩ := ih seen s hs
      refine ⟨hsent, hseen, ?_⟩
      have hne : ¬ (x.url == s.url) = true := by
        intro hbeq
        have hx : x.url = s.url := beq_iff_eq.1 hbeq
        exact hsent (hx ▸ h1)
      rw [@List.find?_cons_of_neg _ (fun t => t.url == s.url) x rest hne]
      exact hfind
    · by_cases h2 : x.url ∈ seen
      · rw [dedupRun, if_neg h1, if_pos h2] at hs
        obtain ⟨hsent, hseen, hfind⟩ := ih seen s hs
        refine ⟨hsent, hseen, ?_⟩
        have hne : ¬ (x.url == s.url) = true := by
          intro hbeq
          exact hseen (beq_iff_eq.1 hbeq ▸ h2)
        rw [@List.find?_cons_of_neg _ (fun t => t.url == s.url) x rest hne]
        exact hfind
      · rw [dedupRun, if_neg h1, if_neg h2] at hs
        rcases List.mem_cons.1 hs with rfl | hs2
        · refine ⟨h1, h2, ?_⟩
          exact @List.find?_cons_of_pos _ (fun t => t.url == s.url) s rest (beq_self_eq_true _)
        · obtain ⟨hsent, hseen, hfind⟩ := ih (x.url :: seen) s hs2
          have hxne : s.url ≠ x.url := fun he => hseen (he ▸ List.mem_cons_self _ _)
          refine ⟨hsent, fun he => hseen (List.mem_cons_of_mem _ he), ?_⟩
          have hne : ¬ (x.url == s.url) = true := by
            intro hbeq
            exact hxne (beq_iff_eq.1 hbeq).symm
          rw [@List.find?_cons_of_neg _ (fun t => t.url == s.url) x rest hne]
          exact hfind

theorem dedupRun_covers (sent : List String) (l : List Story) :
    ∀ seen : List String, ∀ s ∈ l, url_hash s.url ∉ sent → s.url ∉ seen →
      ∃ t ∈ dedupRun sent seen l, t.url = s.url := by
  induction l with
  | nil => intro seen s hs; cases hs
  | cons x rest ih =>
    intro seen s hs hsent hseen
    rcases List.mem_cons.1 hs with rfl | hmem
    · rw [dedupRun, if_neg hsent, if_neg hseen]
      exact ⟨s, List.mem_cons_self _ _, rfl⟩
    · by_cases h1 : url_hash x.url ∈ sent
      · rw [dedupRun, if_pos h1]
        exact ih seen s hmem hsent hseen
      · by_cases h2 : x.url ∈ seen
        · rw [dedupRun, if_neg h1, if_pos h2]
          exact ih seen s hmem hsent hseen
        · rw [dedupRun, if_neg h1, if_neg h2]
          by_cases hxe : s.url = x.url
          · exact ⟨x, List.mem_cons_self _ _, hxe.symm⟩
          · have hnotin : s.url ∉ x.url :: seen := by
              intro hin
              rcases List.mem_cons.1 hin with he | he
              · exact hxe he
              · exact hseen he
            obtain ⟨t, ht, hturl⟩ := ih (x.url :: seen) s hmem hsent hnotin
            exact ⟨t, List.mem_cons_of_mem _ ht, hturl⟩

theorem dedupRun_nodup (sent seen : List String) (l : List Story) :
    (dedupRun sent seen l).Pairwise fun s t => s.url ≠ t.url := by
  induction l generalizing seen with
  | nil => exact List.Pairwise.nil
  | cons x rest ih =>
    by_cases h1 : url_hash x.url ∈ sent
    · rw [dedupRun, if_pos h1]
      exact ih seen
    · by_cases h2 : x.url ∈ seen
      · rw [dedupRun, if_neg h1, if_pos h2]
        exact ih seen
      · rw [dedupRun, if_neg h1, if_neg h2]
        refine List.pairwise_cons.2 ⟨?_, ih (x.url :: seen)⟩
        intro t ht
        obtain ⟨_, hseen, _⟩ := dedupRun_keeps sent (x.url :: seen) rest t ht
        exact fun he => hseen (he ▸ List.mem_cons_self _ _)

/-- C3: for every categorized mapping and sent-hash set, `dedup_stories`
applies the per-category pass that removes exactly the items whose URL
hash is in the sent set, collapses repeated URLs within a category to the
first occurrence, removes nothing else, and preserves relative order
(the result is a sublist of the input). -/
theorem dedup_stories_spec (categorized : List (String × List Story)) (sent : List String) :
    dedup_stories categorized sent =
      categorized.map (fun p => (p.1, dedupRun sent [] p.2)) ∧
    ∀ l : List Story,
      ((dedupRun sent [] l).Sublist l ∧
        (∀ s ∈ dedupRun sent [] l, url_hash s.url ∉ sent ∧
          l.find? (fun t => t.url == s.url) = some s) ∧
        (∀ s ∈ l, url_hash s.url ∉ sent → ∃ t ∈ dedupRun sent [] l, t.url = s.url) ∧
        (dedupRun sent [] l).Pairwise fun s t => s.url ≠ t.url) := by
  refine ⟨rfl, ?_⟩
  intro l
  refine ⟨dedupRun_sublist sent [] l, ?_, ?_, dedupRun_nodup sent [] l⟩
  · intro s hs
    obtain ⟨hsent, _, hfind⟩ := dedupRun_keeps sent [] l s hs
    exact ⟨hsent, hfind⟩
  · intro s hs hsent
    exact dedupRun_covers sent l [] s hs hsent (List.not_mem_nil _)

theorem deleteOlder_kept (cutoff : String) (l : List SentStory) :
    (deleteOlder cutoff l).1 = l.filter fun e => !(strLt e.sent_at cutoff) := by
  induction l with
  | nil => rfl
  | cons e rest ih =>
    cases h : strLt e.sent_at cutoff <;>
      simp [deleteOlder, List.filter_cons, h, ih]

theorem deleteOlder_count (cutoff : String) (l : List SentStory) :
    (deleteOlder cutoff l).2 = l.countP fun e => strLt e.sent_at cutoff := by
  induction l with
  | nil => rfl
  | cons e rest ih =>
    cases h : strLt e.sent_at cutoff <;>
      simp [deleteOlder, List.countP_cons, h, ih]

theorem deleteOlder_length (cutoff : String) (l : List SentStory) :
    (deleteOlder cutoff l).1.length + (deleteOlder cutoff l).2 = l.length := by
  induction l with
  | nil => rfl
  | cons e rest ih =>
    cases h : strLt e.sent_at cutoff <;> simp [deleteOlder, h] <;> omega

/-- The cutoff string `cleanup_old_stories` passes when it runs at
2026-10-12 10:00:00.123456 UTC: the Python `isoformat()` rendering of
now minus 30 days. -/
def isoCutoff : String := "2026-09-12T10:00:00.123456+00:00"

/-- A ledger row the `datetime('now')` default stamped at
2026-09-12 23:00:00 UTC — 13 hours after the cutoff instant, so only
about 29.5 days old at that cleanup, newer than now minus 30 days. -/
def lateRow : SentStory :=
  ⟨"hash-late", "https://a.com/late", "Late", "A", "2026-09-12 23:00:00"⟩

/-- C6 (code bug at a concrete input): the claim says cleanup deletes no
entry with `sent_at` newer than now minus 30 days, and that is the code's
own docstring, but the mismatched text formats break it.  Rendered in the
rows' own `YYYY-MM-DD HH:MM:SS` format the cutoff instant sorts before
`lateRow.sent_at` — the row is chronologically newer than the cutoff —
yet the DELETE's comparison of the row against the `isoformat()` cutoff
string sees `' ' < 'T'` at the format mismatch and deletes the row. -/
theorem cleanup_deletes_newer_row :
    strLt "2026-09-12 10:00:00.123456" lateRow.sent_at = true ∧
    strLt lateRow.sent_at isoCutoff = true ∧
    cleanup_old_stories [lateRow] isoCutoff = ([], 1) := by
  exact ⟨by decide, by decide, by decide⟩

theorem mark_hashes_mono (stories : List Story) (ledger : List SentStory) (now : String)
    {h : String} (hmem : h ∈ get_sent_hashes ledger) :
    h ∈ get_sent_hashes (mark_stories_sent stories ledger now).1 := by
  induction stories generalizing ledger with
  | nil => exact hmem
  | cons s rest ih =>
    by_cases hc : url_hash s.url ∈ get_sent_hashes ledger
    · rw [mark_stories_sent, if_pos hc]
      exact ih ledger hmem
    · rw [mark_stories_sent, if_neg hc]
      refine ih _ ?_
      show h ∈ (ledger ++ _).map SentStory.url_hash
      rw [List.map_append]
      exact List.mem_append_left _ hmem

/-- C7: `mark_stories_sent` inserts one ledger row per story whose hash is
absent at its turn (new ledger size = old size + returned count); a batch
whose hashes are all already present is a complete no-op returning count 0;
a duplicate insert is silently skipped, never an error (the function is
total); and after marking, every story's hash is in the ledger. -/
theorem mark_stories_sent_spec (stories : List Story) (ledger : List SentStory) (now : String) :
    ((mark_stories_sent stories ledger now).1.length =
      ledger.length + (mark_stories_sent stories ledger now).2) ∧
    ((∀ s ∈ stories, url_hash s.url ∈ get_sent_hashes ledger) →
      mark_stories_sent stories ledger now = (ledger, 0)) ∧
    (∀ s ∈ stories, url_hash s.url ∈
      get_sent_hashes (mark_stories_sent stories ledger now).1) := by
  refine ⟨?_, ?_, ?_⟩
  · induction stories generalizing ledger with
    | nil => simp [mark_stories_sent]
    | cons s rest ih =>
      by_cases hc : url_hash s.url ∈ get_sent_hashes ledger
      · rw [mark_stories_sent, if_pos hc]
        exact ih ledger
      · rw [mark_stories_sent, if_neg hc]
        have hlen := ih (ledger ++
          [(⟨url_hash s.url, s.url, s.title, s.category, now⟩ : SentStory)])
        simp only [List.length_append, List.length_cons, List.length_nil] at hlen
        simp only []
        omega
  · induction stories generalizing ledger with
    | nil => intro _; rfl
    | cons s rest ih =>
      intro hall
      have hc : url_hash s.url ∈ get_sent_hashes ledger :=
        hall s (List.mem_cons_self _ _)
      rw [mark_stories_sent, if_pos hc]
      exact ih ledger fun t ht => hall t (List.mem_cons_of_mem _ ht)
  · intro s hs
    induction stories generalizing ledger with
    | nil => cases hs
    | cons x rest ih =>
      rcases List.mem_cons.1 hs with rfl | hmem
      · by_cases hc : url_hash s.url ∈ get_sent_hashes ledger
        · rw [mark_stories_sent, if_pos hc]
          exact mark_hashes_mono rest ledger now hc
        · rw [mark_stories_sent, if_neg hc]
          refine mark_hashes_mono rest _ now ?_
          show url_hash s.url ∈ (ledger ++ _).map SentStory.url_hash
          rw [List.map_append]
          exact List.mem_append_right _ (List.mem_cons_self _ _)
      · by_cases hc : url_hash x.url ∈ get_sent_hashes ledger
        · rw [mark_stories_sent, if_pos hc]
          exact ih ledger hmem
        · rw [mark_stories_sent, if_neg hc]
          exact ih _ hmem

/-- The single story of the C8 scenario. -/
def markStory : Story := { url := "https://a.com/x", title := "T", category := "C" }

/-- The `datetime('now')` text stamped on rows in the C7 and C8 scenarios. -/
def insertedAt : String := "2026-10-12 10:00:00"

set_option maxRecDepth 40000 in
/-- C8 counterexample: on a fresh ledger, the first
`mark_stories_sent [markStory]` call returns insert-count 1, not 2 as the
claim states; the second call returns 0. -/
theorem mark_twice_counterexample :
    (mark_stories_sent [markStory] [] insertedAt).2 = 1 ∧
    (mark_stories_sent [markStory] (mark_stories_sent [markStory] [] insertedAt).1 insertedAt).2 = 0 ∧
    (mark_stories_sent [markStory] [] insertedAt).2 ≠ 2 := by
  refine ⟨by decide, by decide, by decide⟩

set_option maxRecDepth 40000 in
/-- C8 (amended): on a fresh ledger, marking the single-item batch twice
returns insert-count 1 from the first call and 0 from the second, and the
second call leaves the ledger unchanged. -/
theorem mark_twice_amended :
    (mark_stories_sent [markStory] [] insertedAt).2 = 1 ∧
    (mark_stories_sent [markStory] (mark_stories_sent [markStory] [] insertedAt).1 insertedAt).2 = 0 ∧
    (mark_stories_sent [markStory] (mark_stories_sent [markStory] [] insertedAt).1 insertedAt).1 =
      (mark_stories_sent [markStory] [] insertedAt).1 := by
  refine ⟨by decide, by decide, by decide⟩

/-- An events item of the C10 scenario. -/
def dupEvent1 : Story := { url := "https://ev.com/1", title := "E1" }

/-- A second events item with the same URL. -/
def dupEvent2 : Story := { url := "https://ev.com/1", title := "E2" }

/-- C10: `categorize_stories` places every events item in Edmonton Events
unconditionally (the output list is exactly the mapped input, duplicates
included), so two events with the same URL both appear there; the
within-category duplicate is only collapsed later by the dedup pass. -/
theorem events_unconditional (g a m cr ev : List Story) :
    catList (categorize_stories g a m cr ev) "Edmonton Events" =
      ev.map (fun s => { s with category := "Edmonton Events" }) ∧
    (catList (categorize_stories [] [] [] [] [dupEvent1, dupEvent2])
      "Edmonton Events").length = 2 ∧
    (dedupRun [] [] (catList (categorize_stories [] [] [] [] [dupEvent1, dupEvent2])
      "Edmonton Events")).length = 1 := by
  exact ⟨catList_EE g a m cr ev, by decide, by decide⟩

/-- Witness for C1 at a concrete input. -/
theorem categorize_stories_partitions_witness :
    ∃ p ∈ categorize_stories [] [] [] [] [dupEvent1], ∃ t ∈ p.2, t.url = dupEvent1.url :=
  (categorize_stories_partitions [] [] [] [] [dupEvent1]).2.1 dupEvent1 (by decide)

/-- Witness for C2 at a concrete input. -/
theorem categorize_stories_cross_filter_witness :
    varietyStory.url ∈ urlsOf (catList (categorize_stories [varietyStory] [] [] [] [])
      "Actors & Celebrity") ∧
    varietyStory.url ∉ urlsOf (catList (categorize_stories [varietyStory] [] [] [] [])
      "General Entertainment") :=
  (categorize_stories_cross_filter [varietyStory] [] [] [] []).1 varietyStory
    (by decide) (by decide) (by decide) (by decide)

/-- Witness for C3 at a concrete input. -/
theorem dedup_stories_spec_witness :
    ∃ t ∈ dedupRun [] [] [dupEvent1], t.url = dupEvent1.url :=
  ((dedup_stories_spec [] []).2 [dupEvent1]).2.2.1 dupEvent1 (by decide) (by decide)

/-- Witness for C4 at a concrete input. -/
theorem sort_and_limit_sorts_witness : keyLe dupEvent2 dupEvent1 = true := by
  have h := ((sort_and_limit_sorts [("Edmonton Events", [dupEvent1, dupEvent2])]).2.2.2.2
    ("Edmonton Events", [dupEvent1, dupEvent2]) (by decide)).2
  exact h dupEvent1 [dupEvent2] (by decide) dupEvent2 (by decide)

/-- Witness for C5 at a concrete input. -/
theorem sort_and_limit_limits_witness :
    (("General Entertainment", (sortDesc fifteenStories).take STORIES_PER_CATEGORY) :
      String × List Story).2.length ≤ STORIES_PER_CATEGORY :=
  (sort_and_limit_limits [("General Entertainment", fifteenStories)]).1 _ (by decide)

set_option maxRecDepth 40000 in
/-- Witness for C7 at a concrete input. -/
theorem mark_stories_sent_spec_witness :
    url_hash markStory.url ∈ get_sent_hashes (mark_stories_sent [markStory] [] insertedAt).1 :=
  (mark_stories_sent_spec [markStory] [] insertedAt).2.2 markStory (by decide)

/-- Witness for C9 at a concrete input. -/
theorem url_hash_spec_witness :
    url_hash ("  " ++ "https://example.com/story1" ++ " ") =
      url_hash "https://example.com/story1" :=
  (url_hash_spec "https://example.com/story1" "  " " " (by decide) (by decide)).1

end Briefing
